import Mathlib

/-!
Verification of the tar-to-SquashFS pipeline of squashfs-tools-ng against its
natural-language specification.  The C sources under consideration are
`tar/tar2sqfs.c`, `lib/common/serialize_fstree.c`, `lib/sqfs/id_table_write.c`,
`lib/compat/path_sep.c`, `lib/compat/getopt.c` and `lib/compat/getopt_long.c`.
Pure fragments of the C code are embedded as executable Lean functions; code of
the repository that is referenced but not among the given sources (the tar
decoder helpers, the metadata writer, the generic table writer, the inode
numbering pass) is modelled from the specification text, and each such
definition is marked `Modelled from the spec:` in its doc comment.
-/

namespace SqfsTools

/-! ## Compat path separator helpers (`lib/compat/path_sep.c`)

C strings are modelled as `List Char` without the terminating NUL; a pointer to
the terminator corresponds to the empty list / the index `length`. -/

/-- Embedding of the `__is_windows_path_sep` macro in the non-Windows
preprocessor branch (`#else` of `_WIN32`): it expands to `false`. -/
def is_windows_path_sep (_ : Char) : Bool := false

/-- Embedding of the `__is_path_sep` macro: `(c == '/' && __is_windows_path_sep(c))`. -/
def is_path_sep (c : Char) : Bool := c == '/' && is_windows_path_sep c

/-- Embedding of `skip_path_seps`: advances over leading path separators and
returns the rest of the string (the cursor reaching the terminator is the empty
list). -/
def skip_path_seps : List Char → List Char
  | [] => []
  | c :: rest => if is_path_sep c then skip_path_seps rest else c :: rest

/-- Embedding of `next_path_sep`: returns the index of the first path
separator, or the index of the terminating NUL (i.e. the length) if none is
found. -/
def next_path_sep : List Char → Nat
  | [] => 0
  | c :: rest => if is_path_sep c then 0 else next_path_sep rest + 1

/-! ## Identifier table (`lib/sqfs/id_table_write.c` and its callers) -/

/-- Modelled from the spec: `id_to_index(id)` performs a linear lookup in the
identifier table; on a miss the id is appended and the new index returned
(`sqfs_id_table_id_to_index` of libsquashfs, which is not among the given
sources).  Returns the updated table together with the index. -/
def id_to_index (tbl : List Nat) (id : Nat) : List Nat × Nat :=
  match tbl.indexOf? id with
  | some i => (tbl, i)
  | none => (tbl ++ [id], tbl.length)

/-- Folding `id_to_index` over a stream of uid/gid values, as
`serialize_tree_node` does for every node, keeping only the table. -/
def buildIdTable (ids : List Nat) : List Nat :=
  ids.foldl (fun tbl id => (id_to_index tbl id).1) []

/-- Little-endian byte encoding of a 32-bit value (`htole32` followed by a
write of the 4-byte array element). -/
def le32bytes (x : Nat) : List Nat :=
  [x % 256, x / 256 % 256, x / 65536 % 256, x / 16777216 % 256]

/-- The superblock fields that the embedded code reads or writes. -/
structure Super where
  inode_count : Nat
  id_count : Nat
  bytes_used : Nat
  inode_table_start : Nat
  directory_table_start : Nat
  id_table_start : Nat
  root_inode_ref : Nat
  block_size : Nat
  mod_time : Nat
  deriving DecidableEq, Repr

/-- Embedding of `id_table_write`: every table entry is converted to its
little-endian representation, `super->id_count` is set to `tbl->num_ids`, and
the array of 4-byte entries is handed to the generic table writer
(`sqfs_write_table`, modelled from the spec as emitting the payload bytes and
recording the table start).  Returns the updated superblock and the emitted
payload bytes. -/
def id_table_write (tbl : List Nat) (super : Super) (sinkSize : Nat) :
    Super × List Nat :=
  let super := { super with id_count := tbl.length, id_table_start := sinkSize }
  (super, tbl.flatMap le32bytes)

/-! ## Filesystem tree (`fstree` of the repository)

A tree node is either a directory with an ordered list of children or a
non-directory node.  Node identity is reduced to a `Nat` label; every other
per-node attribute (mode bits beyond the directory flag, uid, gid, timestamps)
is irrelevant to the traversal orders studied here. -/

inductive FsTree where
  | leaf : Nat → FsTree
  | dir : Nat → List FsTree → FsTree
  deriving Repr

/-- Label of a node. -/
def FsTree.label : FsTree → Nat
  | .leaf l => l
  | .dir l _ => l

/-- The `S_ISDIR(node->mode)` test. -/
def FsTree.isDirB : FsTree → Bool
  | .leaf _ => false
  | .dir _ _ => true

mutual

/-- All labels of a tree, root first. -/
def allLabels : FsTree → List Nat
  | .leaf l => [l]
  | .dir l cs => l :: labelsList cs

/-- All labels of a forest. -/
def labelsList : List FsTree → List Nat
  | [] => []
  | c :: rest => allLabels c ++ labelsList rest

end

/-- The non-directory children of a child list, in list order (their labels). -/
def genNonDirs (cs : List FsTree) : List Nat :=
  (cs.filter (fun c => !c.isDirB)).map FsTree.label

mutual

/-- Modelled from the spec: `gen_inode_table` assigns dense inode numbers in a
pre-order recursion that, within each directory, visits the non-directory
children first, then descends into the sub-directories, and visits the
directory itself last (`fstree_gen_inode_table` is not among the given
sources).  `genOrder t` is the visit order of the labels; the node visited at
position `i` receives inode number `i + 1`. -/
def genOrder : FsTree → List Nat
  | .leaf l => [l]
  | .dir l cs => genNonDirs cs ++ genSubdirs cs ++ [l]

/-- Visit order contributed by descending into the sub-directories of a
child list, left to right. -/
def genSubdirs : List FsTree → List Nat
  | [] => []
  | c :: rest => (if c.isDirB then genOrder c else []) ++ genSubdirs rest

end

mutual

/-- Embedding of `serialize_recursive`: the emission order of inode records
for the proper descendants of a directory.  The function first checks whether
the directory has sub-directories; if so it recurses into each sub-directory,
and afterwards it serialises every child of the directory in list order. -/
def serRecOrder : FsTree → List Nat
  | .leaf _ => []
  | .dir _ cs =>
    (if cs.any FsTree.isDirB then serSubdirsOrder cs else []) ++
      cs.map FsTree.label

/-- The recursive descent of `serialize_recursive` over the children that are
directories, in list order. -/
def serSubdirsOrder : List FsTree → List Nat
  | [] => []
  | c :: rest => (if c.isDirB then serRecOrder c else []) ++ serSubdirsOrder rest

end

/-- Embedding of the traversal order of `sqfs_serialize_fstree`: if the root is
a directory, `serialize_recursive` runs on it first, and then the root itself
is serialised (last). -/
def serOrder (t : FsTree) : List Nat :=
  (if t.isDirB then serRecOrder t else []) ++ [t.label]

/-- Inode number of the node labelled `x`: one plus its position in the
assignment order of `gen_inode_table` (numbers are handed out from a counter
starting at 1). -/
def inodeNum (t : FsTree) (x : Nat) : Nat := (genOrder t).indexOf x + 1

/-- `Occurs s t` holds when `s` occurs as a subtree of `t` (possibly `t`
itself). -/
inductive Occurs : FsTree → FsTree → Prop where
  | refl (t : FsTree) : Occurs t t
  | child {s c : FsTree} {l : Nat} {cs : List FsTree} :
      c ∈ cs → Occurs s c → Occurs s (.dir l cs)

/-! ## Metadata writer and the serialiser (`lib/common/serialize_fstree.c`)

The metadata writer itself (`sqfs_meta_writer_t`) is not among the given
sources and is modelled from the spec: it buffers appended bytes, emits a block
every 8192 buffered bytes (compressed when that is smaller, else stored
verbatim, preceded by a 16-bit length header), and reports its position as the
physical byte offset of the current block within the table together with the
byte offset inside the current logical block.  Only byte counts matter to the
serialiser's bookkeeping, so block payloads are modelled by their length and
the compressor by a size function `Nat → Nat`. -/

def META_BLOCK_SIZE : Nat := 8192

/-- Position bookkeeping of a metadata writer: physical byte offset of the
current block within its table, and fill level of the (decompressed) buffer. -/
structure MetaWriter where
  blockOffset : Nat
  bufFill : Nat
  deriving DecidableEq, Repr

/-- Modelled from the spec: on-disk size of a metadata block body with payload
length `p` under compressor `c` (the smaller of compressed and verbatim). -/
def storedSize (c : Nat → Nat) (p : Nat) : Nat := if c p < p then c p else p

/-- Modelled from the spec: physical size of an emitted metadata block: 2-byte
length header plus the stored body. -/
def blockPhys (c : Nat → Nat) (p : Nat) : Nat := 2 + storedSize c p

/-- Modelled from the spec: appending `n` bytes to a metadata writer.  Every
time the 8192-byte buffer fills up a block is emitted to the writer's output;
the writer is left with the remainder in its buffer.  Returns the new writer
and the number of physical bytes emitted. -/
def mwAppend (c : Nat → Nat) (mw : MetaWriter) (n : Nat) : MetaWriter × Nat :=
  let total := mw.bufFill + n
  let emitted := total / META_BLOCK_SIZE * blockPhys c META_BLOCK_SIZE
  ({ blockOffset := mw.blockOffset + emitted, bufFill := total % META_BLOCK_SIZE },
   emitted)

/-- Modelled from the spec: `sqfs_meta_writer_flush` emits the partially filled
block, if any. -/
def mwFlush (c : Nat → Nat) (mw : MetaWriter) : MetaWriter × Nat :=
  if mw.bufFill = 0 then (mw, 0)
  else
    let e := blockPhys c mw.bufFill
    ({ blockOffset := mw.blockOffset + e, bufFill := 0 }, e)

/-- Embedding of lines 145-146 of `serialize_fstree.c`:
`n->inode_ref = (block << 16) | offset` from
`sqfs_meta_writer_get_position`.  The intra-block offset is below 8192, so the
bitwise or is plain addition. -/
def encodeRef (mw : MetaWriter) : Nat := mw.blockOffset * 65536 + mw.bufFill

/-- Sizing environment of a serialisation run: metadata-block compressor,
per-node inode record size, per-directory listing size, and per-node owner and
group ids (all keyed by the node's label). -/
structure SerEnv where
  comp : Nat → Nat
  isz : Nat → Nat
  dsz : Nat → Nat
  uid : Nat → Nat
  gid : Nat → Nat

/-- State threaded through `sqfs_serialize_fstree`: output file size, the two
metadata writers (the inode writer emits its blocks straight to the file, the
directory writer keeps them in memory, `dmMem` bytes so far), the id table,
and the `(label, inode_ref)` pairs recorded on the nodes, in emission order. -/
structure SerState where
  sinkSize : Nat
  im : MetaWriter
  dm : MetaWriter
  dmMem : Nat
  idtbl : List Nat
  refs : List (Nat × Nat)

/-- Embedding of `serialize_tree_node`: for a directory the child entries are
first recoded into the directory metadata writer (`write_dir_entries`); then
the uid and the gid are interned in the id table; then the inode writer's
position is captured as the node's inode reference and the inode record is
written to the inode metadata writer, whose completed blocks go straight to
the output file.  Returns the new state and the recorded inode reference. -/
def serialize_tree_node (e : SerEnv) (isDir : Bool) (l : Nat) (s : SerState) :
    SerState × Nat :=
  let s1 := if isDir then
      let r := mwAppend e.comp s.dm (e.dsz l)
      { s with dm := r.1, dmMem := s.dmMem + r.2 }
    else s
  let s2 := { s1 with
    idtbl := (id_to_index (id_to_index s1.idtbl (e.uid l)).1 (e.gid l)).1 }
  let ref := encodeRef s2.im
  let r := mwAppend e.comp s2.im (e.isz l)
  ({ s2 with im := r.1, sinkSize := s2.sinkSize + r.2,
             refs := s2.refs ++ [(l, ref)] }, ref)

mutual

/-- Embedding of `serialize_recursive`: scan the children for sub-directories;
if there are any, recurse into each sub-directory; then serialise every child
of this directory in list order. -/
def serialize_recursive (e : SerEnv) : FsTree → SerState → SerState
  | .leaf _, s => s
  | .dir _ cs, s =>
    let s1 := if cs.any FsTree.isDirB then serializeSubdirs e cs s else s
    serializeChildren e cs s1

/-- The descent of `serialize_recursive` into the directory children. -/
def serializeSubdirs (e : SerEnv) : List FsTree → SerState → SerState
  | [], s => s
  | c :: rest, s =>
    serializeSubdirs e rest (if c.isDirB then serialize_recursive e c s else s)

/-- The final loop of `serialize_recursive` over all children. -/
def serializeChildren (e : SerEnv) : List FsTree → SerState → SerState
  | [], s => s
  | c :: rest, s =>
    serializeChildren e rest (serialize_tree_node e c.isDirB c.label s).1

end

/-- Result of `sqfs_serialize_fstree`: final state and the superblock fields it
records. -/
structure SerResult where
  state : SerState
  inode_table_start : Nat
  root_inode_ref : Nat
  directory_table_start : Nat

/-- Embedding of `sqfs_serialize_fstree`: record `inode_table_start` as the
current file size; if the root is a directory run `serialize_recursive` on it;
serialise the root's own inode; flush the inode metadata writer (its last
block goes to the file) and then the directory metadata writer (its last block
goes to its memory buffer); record the root's inode reference; record
`directory_table_start` as the file size; append the directory writer's
buffered output to the file. -/
def sqfs_serialize_fstree (e : SerEnv) (root : FsTree) (s0 : SerState) :
    SerResult :=
  let its := s0.sinkSize
  let s1 := if root.isDirB then serialize_recursive e root s0 else s0
  let p := serialize_tree_node e root.isDirB root.label s1
  let s2 := p.1
  let f1 := mwFlush e.comp s2.im
  let s3 := { s2 with im := f1.1, sinkSize := s2.sinkSize + f1.2 }
  let f2 := mwFlush e.comp s3.dm
  let s4 := { s3 with dm := f2.1, dmMem := s3.dmMem + f2.2 }
  let dts := s4.sinkSize
  let s5 := { s4 with sinkSize := s4.sinkSize + s4.dmMem, dmMem := 0 }
  ⟨s5, its, p.2, dts⟩

/-- Replay of the inode metadata writer over a sequence of node labels: the
writer state after appending each node's inode record in order. -/
def imAfter (e : SerEnv) (ls : List Nat) (mw : MetaWriter) : MetaWriter :=
  ls.foldl (fun m l => (mwAppend e.comp m (e.isz l)).1) mw

/-- Reference specification of the recorded inode references: each node's
reference is the encoded position of the inode metadata writer at the moment
its record is appended, the writer being advanced by exactly the inode records
of the preceding nodes. -/
def refsSpec (e : SerEnv) : List Nat → MetaWriter → List (Nat × Nat)
  | [], _ => []
  | l :: rest, mw =>
    (l, encodeRef mw) :: refsSpec e rest (mwAppend e.comp mw (e.isz l)).1

/-- Correctness invariant of a serialisation segment that emits the inode
records of `order`: the inode writer is advanced by exactly those records, the
recorded references replay the writer's positions, the file grows by exactly
the physical bytes the inode writer emitted, and the directory writer's memory
grows by exactly the physical bytes the directory writer emitted. -/
def SerInv (e : SerEnv) (order : List Nat) (s s' : SerState) : Prop :=
  s'.im = imAfter e order s.im ∧
  s'.refs = s.refs ++ refsSpec e order s.im ∧
  s'.sinkSize + s.im.blockOffset = s.sinkSize + s'.im.blockOffset ∧
  s'.dmMem + s.dm.blockOffset = s.dmMem + s'.dm.blockOffset

/-! ## Tar record processing (`process_tar_ball` and `write_file` of
`tar/tar2sqfs.c`)

A decoded tar header is reduced to the fields `process_tar_ball` inspects.
The tar decoder itself (`read_header`, `canonicalize_name`, `skip_entry`,
`skip_padding`) is not among the given sources; the canonicaliser is abstracted
by its boolean outcome and the two skip helpers are modelled from the spec. -/

/-- The fields of `tar_header_decoded_t` that `process_tar_ball` reads.
`canonOk` abstracts the outcome of `canonicalize_name(hdr.name)` (that
function is not among the given sources). -/
structure TarRecord where
  nameNull : Bool
  canonOk : Bool
  unknown_record : Bool
  isReg : Bool
  sparse : Option (List (Nat × Nat))
  record_size : Nat
  st_size : Nat
  deriving DecidableEq, Repr

/-- Round up to the next multiple of 512 (tar records are 512-byte blocks). -/
def roundUp512 (n : Nat) : Nat := (n + 511) / 512 * 512

/-- Modelled from the spec: `skip_entry(fd, size)` drains a record body of
`size` bytes together with its padding to the next 512-byte boundary, i.e.
`size` rounded up to 512. -/
def skip_entry_len (size : Nat) : Nat := roundUp512 size

/-- Modelled from the spec: `skip_padding(fd, size)` drains only the padding
that follows a `size`-byte body. -/
def skip_padding_len (size : Nat) : Nat := roundUp512 size - size

/-- Embedding of the sparse-map validation loop of `process_tar_ball` (lines
352-366): walk the extent list with a running end-of-previous-extent position,
breaking out (first component `true`) as soon as an extent starts before that
position, while accumulating the extent lengths.  `pos` starts as the offset
of the first extent and `count` as 0. -/
def sparse_scan : List (Nat × Nat) → Nat → Nat → Bool × Nat
  | [], _, count => (false, count)
  | ext :: rest, pos, count =>
    if ext.1 < pos then (true, count)
    else sparse_scan rest (ext.1 + ext.2) (count + ext.2)

/-- Embedding of the skip decision of `process_tar_ball`: a record is flagged
for skipping when its name is NULL or fails canonicalisation, when its type is
unknown, or when it has a sparse map whose scan breaks or whose extent lengths
do not sum to `record_size`. -/
def record_skip (r : TarRecord) : Bool :=
  (r.nameNull || !r.canonOk) ||
  r.unknown_record ||
  (match r.sparse with
   | none => false
   | some m =>
     (sparse_scan m (m.headD (0, 0)).1 0).1 ||
     (sparse_scan m (m.headD (0, 0)).1 0).2 != r.record_size)

/-- Embedding of `write_file`: the number of bytes read from standard input
while packing a regular file's data.  For a sparse file the condensed writer
reads the extent data (the sum of the extent lengths) and then
`skip_padding(record_size)` advances past the padding of the `record_size`
byte body; otherwise the file's `size` bytes are read and
`skip_padding(size)` advances past their padding. -/
def write_file_consumed (r : TarRecord) : Nat :=
  match r.sparse with
  | some m => (m.map (fun ext => ext.2)).sum + skip_padding_len r.record_size
  | none => r.st_size + skip_padding_len r.st_size

/-- Outcome of one iteration of the `process_tar_ball` loop. -/
inductive RecResult where
  | abort
  | skipped (drained : Nat)
  | processed (consumed : Nat)
  deriving DecidableEq, Repr

/-- Embedding of one iteration of `process_tar_ball` (the error-free data
path): a record flagged for skipping aborts the run when `dont_skip` is set
and is otherwise drained with `skip_entry(hdr.sb.st_size)`; an accepted
record is packed, consuming its body from standard input (only regular files
have a body). -/
def process_record (dont_skip : Bool) (r : TarRecord) : RecResult :=
  if record_skip r then
    if dont_skip then .abort else .skipped (skip_entry_len r.st_size)
  else .processed (if r.isReg then write_file_consumed r else 0)

/-- Embedding of the `process_tar_ball` loop over a record stream: `none`
when the run aborts, otherwise the per-record outcomes in order. -/
def process_tar_ball (dont_skip : Bool) : List TarRecord → Option (List RecResult)
  | [] => some []
  | r :: rest =>
    match process_record dont_skip r with
    | .abort => none
    | res => (process_tar_ball dont_skip rest).map (fun tail => res :: tail)

/-! ## Compat getopt (`lib/compat/getopt.c`, `lib/compat/getopt_long.c`)

Command-line strings are Lean `String`s; indexing past the end yields the NUL
character, exactly as reading a C string's terminator does. -/

/-- C-style string indexing: the terminator (and anything past it) reads as
NUL. -/
def charAt (s : String) (i : Nat) : Char := s.toList.getD i (Char.ofNat 0)

/-- `argv[i]` (only ever evaluated under the bounds checks the C code makes). -/
def argvAt (argv : List String) (i : Nat) : String := argv.getD i (r"")

/-- The mutable state of the compat getopt: the static `optind` and `current`
and the global `optarg`. -/
structure GetoptSt where
  optind : Nat
  current : List Char
  optarg : Option String
  deriving DecidableEq, Repr

/-- Return value of `getopt`: `-1`, an option character, or `'?'`. -/
inductive OptRet where
  | done
  | ch (c : Char)
  | unknown
  deriving DecidableEq, Repr

/-- Embedding of `strchr(s, c)`: the suffix of s starting at the first
occurrence of `c`, if any. -/
def strchrTail : List Char → Char → Option (List Char)
  | [], _ => none
  | a :: rest, c => if a == c then some (a :: rest) else strchrTail rest c

/-- Embedding of the option-character consumption of `getopt` (everything
after the `current` refill): take one character off the cluster, reject `':'`
and characters absent from `optstr`, then fetch the argument for characters
followed by `':'` in `optstr` (from the rest of the cluster if non-empty, else
from the next argv element, failing when there is none). -/
def getoptScan (argv : List String) (optstr : String) (st : GetoptSt) :
    OptRet × GetoptSt :=
  match st.current with
  | [] => (.done, st)
  | optchr :: cur =>
    let st := { st with current := cur }
    if optchr = ':' then (.unknown, st)
    else
      match strchrTail optstr.toList optchr with
      | none => (.unknown, st)
      | some tail =>
        if (tail.drop 1).head? = some ':' then
          if cur ≠ [] then
            (.ch optchr, { st with optarg := some (String.mk cur),
                                   current := [], optind := st.optind + 1 })
          else if st.optind + 1 ≥ argv.length then
            (.unknown, { st with optind := st.optind + 1 })
          else
            (.ch optchr, { st with optarg := some (argvAt argv (st.optind + 1)),
                                   current := [], optind := st.optind + 2 })
        else
          let st := { st with optarg := none }
          if cur = [] then (.ch optchr, { st with optind := st.optind + 1 })
          else (.ch optchr, st)

/-- Embedding of the compat `getopt`: refill `current` from the next argv
element (returning -1 at the end of the options, at a `--`, or at a lone `-`)
and scan one option character. -/
def getopt (argv : List String) (optstr : String) (st : GetoptSt) :
    OptRet × GetoptSt :=
  if st.current = [] then
    if st.optind ≥ argv.length ∨ charAt (argvAt argv st.optind) 0 ≠ '-' then
      (.done, st)
    else if charAt (argvAt argv st.optind) 1 = '-' ∧
            charAt (argvAt argv st.optind) 2 = Char.ofNat 0 then
      (.done, { st with optind := st.optind + 1 })
    else if charAt (argvAt argv st.optind) 1 = Char.ofNat 0 then
      (.done, st)
    else
      getoptScan argv optstr
        { st with current := (argvAt argv st.optind).toList.drop 1 }
  else getoptScan argv optstr st

/-- A row of a `struct option` table: name (`none` is a NULL name, the
sentinel the lookup loop of `getopt_long` terminates on), `has_arg`
(`required_argument` is `true`), and the value returned on a match. -/
structure LongOpt where
  name : Option String
  has_arg : Bool
  val : Char
  deriving DecidableEq, Repr

/-- Embedding of the `long_opts` table of tar2sqfs.c, rows in source order
(lines 31-47).  The table ends with the `version` row; it contains no
NULL-name sentinel row. -/
def long_opts : List LongOpt :=
  [⟨some (r"compressor"), true, 'c'⟩,
   ⟨some (r"block-size"), true, 'b'⟩,
   ⟨some (r"dev-block-size"), true, 'B'⟩,
   ⟨some (r"defaults"), true, 'd'⟩,
   ⟨some (r"num-jobs"), true, 'j'⟩,
   ⟨some (r"queue-backlog"), true, 'Q'⟩,
   ⟨some (r"comp-extra"), true, 'X'⟩,
   ⟨some (r"no-skip"), false, 's'⟩,
   ⟨some (r"no-xattr"), false, 'x'⟩,
   ⟨some (r"keep-time"), false, 'k'⟩,
   ⟨some (r"exportable"), false, 'e'⟩,
   ⟨some (r"force"), false, 'f'⟩,
   ⟨some (r"quiet"), false, 'q'⟩,
   ⟨some (r"help"), false, 'h'⟩,
   ⟨some (r"version"), false, 'V'⟩]

/-- The `short_opts` string of tar2sqfs.c (line 49). -/
def short_opts : String := r"c:b:B:d:X:j:Q:sxekfqhV"

/-- Embedding of the match test of the `getopt_long` lookup loop:
`strncmp(longopts[i].name, ptr, len) == 0` followed by
`longopts[i].name[len] == '\0'`, where `len` is the length of the option text
before `=` or the terminator. -/
def longMatch (nm : String) (key : List Char) : Bool :=
  nm.toList.take key.length == key && charAt nm key.length == Char.ofNat 0

/-- Outcome of the lookup loop of `getopt_long`: a matching row, the NULL-name
sentinel row (after which `getopt_long` reports an unknown option), or — when
the table holds neither a match nor a sentinel — the loop condition reads the
entry one past the end of the table, an out-of-bounds access. -/
inductive LookupRes where
  | matched (o : LongOpt)
  | sentinel
  | oob
  deriving DecidableEq, Repr

/-- Embedding of the lookup loop of `getopt_long` (lines 35-44 of
`getopt_long.c`): scan the table in order, stopping at the first row whose
name matches or whose name is NULL; running past the last row is an
out-of-bounds read. -/
def longLookup : List LongOpt → List Char → LookupRes
  | [], _ => .oob
  | o :: rest, key =>
    match o.name with
    | none => .sentinel
    | some nm => if longMatch nm key then .matched o else longLookup rest key

/-- Return value of `getopt_long`; `oobRead` marks the undefined behaviour of
the lookup loop running past the table. -/
inductive GLRet where
  | done
  | ch (c : Char)
  | unknown
  | oobRead
  deriving DecidableEq, Repr

/-- Embedding of the compat `getopt_long`: arguments that are not `--name`
forms are delegated to `getopt`; otherwise the name (up to `=` or the end) is
looked up in the table and the option argument is taken from after the `=` or
from the next argv element. -/
def getopt_long (argv : List String) (optstr : String) (lopts : List LongOpt)
    (st : GetoptSt) : GLRet × GetoptSt :=
  if st.optind ≥ argv.length ∨ charAt (argvAt argv st.optind) 0 ≠ '-' ∨
     charAt (argvAt argv st.optind) 1 ≠ '-' ∨
     charAt (argvAt argv st.optind) 2 = Char.ofNat 0 then
    match getopt argv optstr st with
    | (.done, st) => (.done, st)
    | (.ch c, st) => (.ch c, st)
    | (.unknown, st) => (.unknown, st)
  else
    let st := { st with optarg := none }
    let ptr := (argvAt argv st.optind).toList.drop 2
    let key := ptr.takeWhile (fun c => c ≠ '=')
    match longLookup lopts key with
    | .oob => (.oobRead, st)
    | .sentinel => (.unknown, st)
    | .matched o =>
      if (ptr.drop key.length).head? = some '=' then
        if o.has_arg = false then (.unknown, st)
        else
          (.ch o.val, { st with optarg := some (String.mk (ptr.drop (key.length + 1))),
                                optind := st.optind + 1 })
      else if o.has_arg then
        if st.optind + 1 ≥ argv.length then
          (.unknown, { st with optind := st.optind + 1 })
        else
          (.ch o.val, { st with optarg := some (argvAt argv (st.optind + 1)),
                                optind := st.optind + 2 })
      else (.ch o.val, { st with optind := st.optind + 1 })

/-! ## Argument processing (`process_args` of tar2sqfs.c) -/

/-- The whitespace test of `strtol`. -/
def isCSpace (c : Char) : Bool :=
  c == ' ' || c == Char.ofNat 9 || c == Char.ofNat 10 || c == Char.ofNat 11 ||
  c == Char.ofNat 12 || c == Char.ofNat 13

/-- Value of one digit character under a base, if valid. -/
def digitValue (base : Nat) (c : Char) : Option Nat :=
  let v :=
    if '0' ≤ c ∧ c ≤ '9' then some (c.toNat - '0'.toNat)
    else if 'a' ≤ c ∧ c ≤ 'z' then some (c.toNat - 'a'.toNat + 10)
    else if 'A' ≤ c ∧ c ≤ 'Z' then some (c.toNat - 'A'.toNat + 10)
    else none
  match v with
  | some d => if d < base then some d else none
  | none => none

/-- Accumulate leading digits of a given base, stopping at the first invalid
character. -/
def digitsValue (base : Nat) : List Char → Nat → Nat
  | [], acc => acc
  | c :: rest, acc =>
    match digitValue base c with
    | some d => digitsValue base rest (acc * base + d)
    | none => acc

/-- Embedding of `strtol(s, NULL, 0)`: skip whitespace, an optional sign, a
`0x`/`0X` or `0` base prefix, then accumulate digits (overflow clamping of the
C library is not modelled; the embedded callers convert the result to their
declared integer types themselves). -/
def strtol (s : String) : Int :=
  let cs := s.toList.dropWhile (fun c => isCSpace c)
  let neg := cs.head? = some '-'
  let cs := if cs.head? = some '-' ∨ cs.head? = some '+' then cs.drop 1 else cs
  let p : Nat × List Char :=
    if cs.head? = some '0' then
      if (cs.drop 1).head? = some 'x' ∨ (cs.drop 1).head? = some 'X' then
        (16, cs.drop 2)
      else (8, cs.drop 1)
    else (10, cs)
  let v : Int := Int.ofNat (digitsValue p.1 p.2 0)
  if neg then -v else v

/-- Conversion of a C `long` value to `int` (two's complement wrap-around). -/
def toCInt (v : Int) : Int := (v + 2147483648) % 4294967296 - 2147483648

/-- Conversion of a C `long` value to `size_t`. -/
def toSizeT (v : Int) : Nat := (v % 18446744073709551616).toNat

/-- Conversion of a C `long` value to `unsigned int`. -/
def toCUInt (v : Int) : Nat := (v % 4294967296).toNat

/-- The static option variables of tar2sqfs.c that `process_args` sets. -/
structure ArgsSt where
  block_size : Int
  devblksize : Nat
  num_jobs : Nat
  max_backlog : Nat
  comp_extra : Option String
  fs_defaults : Option String
  dont_skip : Bool
  no_xattr : Bool
  keep_time : Bool
  exportable : Bool
  outmode_overwrite : Bool
  quiet : Bool
  deriving DecidableEq, Repr

/-- `SQFS_DEFAULT_BLOCK_SIZE`. -/
def SQFS_DEFAULT_BLOCK_SIZE : Nat := 131072

/-- `SQFS_DEVBLK_SIZE`. -/
def SQFS_DEVBLK_SIZE : Nat := 4096

/-- Initial values of the static option variables (lines 100-113). -/
def initArgs : ArgsSt :=
  ⟨131072, 4096, 1, 0, none, none, false, false, false, false, false, false⟩

/-- Outcome of `process_args`: normal return with the settings and the output
filename, `exit(EXIT_FAILURE)`, `exit(EXIT_SUCCESS)` (help, version or
compressor help), the out-of-bounds read of the long-option lookup, or fuel
exhaustion of the embedding (never hit by the runs considered). -/
inductive ArgsOut where
  | ok (st : ArgsSt) (filename : String)
  | exitFailure
  | exitSuccess
  | oobRead
  | outOfFuel
  deriving DecidableEq, Repr

/-- Embedding of the post-loop part of `process_args` (lines 197-219):
default `num_jobs` and `max_backlog`, the `comp-extra help` exit, and the
extraction of the one positional argument. -/
def processArgsEnd (argv : List String) (gst : GetoptSt) (st : ArgsSt) :
    ArgsOut :=
  let st := if st.num_jobs < 1 then { st with num_jobs := 1 } else st
  let st :=
    if st.max_backlog < 1 then { st with max_backlog := 10 * st.num_jobs }
    else st
  if st.comp_extra = some (r"help") then .exitSuccess
  else if gst.optind ≥ argv.length then .exitFailure
  else if gst.optind + 1 < argv.length then .exitFailure
  else .ok st (argvAt argv gst.optind)

/-- Embedding of the option loop of `process_args` (lines 122-195).  The
`compOk` parameter abstracts `sqfs_compressor_id_from_name` combined with
`sqfs_compressor_exists` (not among the given sources).  Each case of the C
switch maps to one branch; note that the `'b'` case stores the converted value
without any range check. -/
def processArgsLoop (compOk : String → Bool) (argv : List String) :
    Nat → GetoptSt → ArgsSt → ArgsOut
  | 0, _, _ => .outOfFuel
  | fuel + 1, gst, st =>
    match getopt_long argv short_opts long_opts gst with
    | (.oobRead, _) => .oobRead
    | (.done, gst) => processArgsEnd argv gst st
    | (.unknown, _) => .exitFailure
    | (.ch c, gst) =>
      let arg := gst.optarg.getD (r"")
      if c = 'b' then
        processArgsLoop compOk argv fuel gst
          { st with block_size := toCInt (strtol arg) }
      else if c = 'B' then
        let v := toSizeT (strtol arg)
        if v < 1024 then .exitFailure
        else processArgsLoop compOk argv fuel gst { st with devblksize := v }
      else if c = 'c' then
        if compOk arg then processArgsLoop compOk argv fuel gst st
        else .exitFailure
      else if c = 'j' then
        processArgsLoop compOk argv fuel gst
          { st with num_jobs := toCUInt (strtol arg) }
      else if c = 'Q' then
        processArgsLoop compOk argv fuel gst
          { st with max_backlog := toSizeT (strtol arg) }
      else if c = 'X' then
        processArgsLoop compOk argv fuel gst { st with comp_extra := some arg }
      else if c = 'd' then
        processArgsLoop compOk argv fuel gst { st with fs_defaults := some arg }
      else if c = 'x' then
        processArgsLoop compOk argv fuel gst { st with no_xattr := true }
      else if c = 'k' then
        processArgsLoop compOk argv fuel gst { st with keep_time := true }
      else if c = 's' then
        processArgsLoop compOk argv fuel gst { st with dont_skip := true }
      else if c = 'e' then
        processArgsLoop compOk argv fuel gst { st with exportable := true }
      else if c = 'f' then
        processArgsLoop compOk argv fuel gst
          { st with outmode_overwrite := true }
      else if c = 'q' then
        processArgsLoop compOk argv fuel gst { st with quiet := true }
      else if c = 'h' then .exitSuccess
      else if c = 'V' then .exitSuccess
      else .exitFailure

/-- Embedding of `process_args`: run the option loop from the initial getopt
state (`optind = 1`, empty cluster) with ample fuel. -/
def process_args (compOk : String → Bool) (argv : List String) : ArgsOut :=
  processArgsLoop compOk argv
    (argv.foldl (fun n s => n + s.length) 0 + argv.length + 2)
    ⟨1, [], none⟩ initArgs

/-! ## The driver (`main` of tar2sqfs.c) -/

/-- `EXIT_SUCCESS`. -/
def EXIT_SUCCESS : Nat := 0

/-- `EXIT_FAILURE`. -/
def EXIT_FAILURE : Nat := 1

/-- Outcome environment of one run of `main` after argument processing: the
block size chosen on the command line and the success of each pipeline step
(the steps themselves live behind interfaces that are not among the given
sources; only their success or failure steers `main`'s control flow). -/
structure MainEnv where
  block_size : Int
  cfgOtherOk : Bool
  openOk : Bool
  fstreeInitOk : Bool
  cmpCreateOk : Bool
  superInitOk : Bool
  superWriteOk : Bool
  writeOptionsRet : Int
  dataCreateOk : Bool
  idtblCreateOk : Bool
  processTarOk : Bool
  syncOk : Bool
  genInodeTableOk : Bool
  serializeOk : Bool
  fragTableOk : Bool
  exportable : Bool
  exportTableOk : Bool
  idTableWriteOk : Bool
  xattrWriteOk : Bool
  superRewriteOk : Bool
  paddOk : Bool
  deriving DecidableEq, Repr

/-- Modelled from the spec: `compressor_cfg_init_options` validates the
compressor configuration; the spec requires the data block size to be at
least 4096 (`block-size` "must be ≥ 4096"), and other configuration errors
are abstracted by `cfgOtherOk`. -/
def compressor_cfg_init_options (e : MainEnv) : Bool :=
  decide (4096 ≤ e.block_size) && e.cfgOtherOk

/-- Embedding of `main` (lines 394-506): the exit status together with a flag
telling whether the output file was opened.  `status` is initialised to
`EXIT_SUCCESS` (line 397) and every `goto out` failure path after that point
returns `status` unchanged; only the two earliest failures return
`EXIT_FAILURE` directly. -/
def tar2sqfs_main (e : MainEnv) : Nat × Bool :=
  if compressor_cfg_init_options e = false then (EXIT_FAILURE, false)
  else if e.openOk = false then (EXIT_FAILURE, false)
  else
    let status := EXIT_SUCCESS
    if e.fstreeInitOk = false then (status, true)
    else if e.cmpCreateOk = false then (status, true)
    else if e.superInitOk = false then (status, true)
    else if e.superWriteOk = false then (status, true)
    else if e.writeOptionsRet < 0 then (status, true)
    else if e.dataCreateOk = false then (status, true)
    else if e.idtblCreateOk = false then (status, true)
    else if e.processTarOk = false then (status, true)
    else if e.syncOk = false then (status, true)
    else if e.genInodeTableOk = false then (status, true)
    else if e.serializeOk = false then (status, true)
    else if e.fragTableOk = false then (status, true)
    else if e.exportable ∧ e.exportTableOk = false then (status, true)
    else if e.idTableWriteOk = false then (status, true)
    else if e.xattrWriteOk = false then (status, true)
    else if e.superRewriteOk = false then (status, true)
    else if e.paddOk = false then (status, true)
    else (EXIT_SUCCESS, true)

/-- An environment in which every pipeline step succeeds. -/
def allOkEnv : MainEnv :=
  ⟨131072, true, true, true, true, true, true, 0, true, true, true, true,
   true, true, true, false, true, true, true, true, true⟩

/-! ## Superblock rewrite and final padding (lines 481-487 of tar2sqfs.c)

The output file is modelled as its byte list. -/

/-- Little-endian byte encoding of a 64-bit value. -/
def le64bytes (x : Nat) : List Nat :=
  [x % 256, x / 256 % 256, x / 65536 % 256, x / 16777216 % 256,
   x / 4294967296 % 256, x / 1099511627776 % 256, x / 281474976710656 % 256,
   x / 72057594037927936 % 256]

/-- Modelled from the spec: the fixed 96-byte on-disk superblock record at
offset 0 (magic `0x73717368`, counts, table start offsets, root inode
reference, total bytes used; `sqfs_super_write` is not among the given
sources, and only the record's 96-byte size and its position at offset 0
matter to the properties proved here). -/
def superBytes (s : Super) : List Nat :=
  le32bytes 1936814952 ++ le32bytes s.inode_count ++ le32bytes s.mod_time ++
  le32bytes s.block_size ++ le32bytes s.id_count ++ le32bytes 0 ++
  le64bytes s.bytes_used ++ le64bytes s.root_inode_ref ++
  le64bytes s.inode_table_start ++ le64bytes s.directory_table_start ++
  le64bytes s.id_table_start ++ le64bytes 0 ++ le64bytes 0 ++ le64bytes 0 ++
  le64bytes 0

/-- Random-access write into the byte-sink at a given offset (extending with
zeroes if the offset lies past the end, which the embedded callers never
do). -/
def writeAt (file : List Nat) (off : Nat) (d : List Nat) : List Nat :=
  file.take off ++ List.replicate (off - file.length) 0 ++ d ++
    file.drop (off + d.length)

/-- Modelled from the spec: `sqfs_super_write` serialises the superblock and
writes the 96-byte record at offset 0. -/
def sqfs_super_write (s : Super) (file : List Nat) : List Nat :=
  writeAt file 0 (superBytes s)

/-- Modelled from the spec: `padd_sqfs(outfile, sz, blocksize)` appends zero
bytes until the image size is a multiple of the device block size. -/
def padd_sqfs (file : List Nat) (sz : Nat) (blocksize : Nat) : List Nat :=
  file ++ List.replicate ((blocksize - sz % blocksize) % blocksize) 0

/-- Embedding of lines 481-487 of `main`: record
`super.bytes_used = outfile->get_size(outfile)`, rewrite the superblock at
offset 0, and pad the file to a multiple of `devblksize`. -/
def finishImage (super : Super) (file : List Nat) (devblksize : Nat) :
    Super × List Nat :=
  let super := { super with bytes_used := file.length }
  let file := sqfs_super_write super file
  (super, padd_sqfs file super.bytes_used devblksize)

/-! ## Claim-side predicates and concrete fixtures -/

/-- Sum of the extent lengths of a sparse map. -/
def extentLen (m : List (Nat × Nat)) : Nat := (m.map (fun ext => ext.2)).sum

/-- The invalidity notion of the claim on decode errors: NULL or
non-canonicalisable name, unknown record type, or a sparse map whose extents
are not in ascending offset order or whose lengths do not sum to
`record_size`. -/
def ClaimInvalid (r : TarRecord) : Prop :=
  (r.nameNull = true ∨ r.canonOk = false) ∨ r.unknown_record = true ∨
  (∃ m, r.sparse = some m ∧
    (¬ List.Chain' (fun a b => a ≤ b) (m.map Prod.fst) ∨
      extentLen m ≠ r.record_size))

/-- The extent list of the sparse test fixture (`tests/tar_sparse.c`): eight
4096-byte extents at 256-KiB strides plus the `(2097152, 0)` sentinel. -/
def sparseFixtureExtents : List (Nat × Nat) :=
  [(0, 4096), (262144, 4096), (524288, 4096), (786432, 4096),
   (1048576, 4096), (1310720, 4096), (1572864, 4096), (1835008, 4096),
   (2097152, 0)]

/-- The sparse fixture as a record whose name fails canonicalisation, hence a
record that `process_tar_ball` skips: body payload `record_size = 32768`
bytes in the stream, logical size `st_size = 2097152`. -/
def sparseFixtureSkipped : TarRecord :=
  ⟨false, false, false, true, some sparseFixtureExtents, 32768, 2097152⟩

/-- The same sparse fixture with a valid name, hence processed. -/
def sparseFixtureAccepted : TarRecord :=
  ⟨false, true, false, true, some sparseFixtureExtents, 32768, 2097152⟩

/-- A record of unknown type (fixture for the skip policy). -/
def unknownRecord : TarRecord := ⟨false, true, true, false, none, 0, 1024⟩

/-- A small sample tree: root 1 with file 2, directory 3 (file 4, empty
directory 5) and file 6. -/
def sampleTree : FsTree :=
  .dir 1 [.leaf 2, .dir 3 [.leaf 4, .dir 5 []], .leaf 6]

/-- A sample superblock value. -/
def sampleSuper : Super := ⟨0, 0, 0, 0, 0, 0, 0, 0, 0⟩

end SqfsTools

namespace SqfsTools

/-! ## Theorems: C9 and C7 -/

/-- C9: on non-Windows builds `__is_path_sep` is constantly false, so
`skip_path_seps` returns its input unchanged (it never skips a leading slash)
and `next_path_sep` always returns the position of the terminating NUL. -/
theorem path_sep_helpers_are_inert :
    (∀ c, is_path_sep c = false) ∧
    (∀ s : List Char, skip_path_seps s = s) ∧
    (∀ s : List Char, next_path_sep s = s.length) := by
  refine ⟨fun c => by simp [is_path_sep, is_windows_path_sep], fun s => ?_, fun s => ?_⟩
  · cases s with
    | nil => rfl
    | cons c rest => simp [skip_path_seps, is_path_sep, is_windows_path_sep]
  · induction s with
    | nil => rfl
    | cons c rest ih => simp [next_path_sep, is_path_sep, is_windows_path_sep, ih]

/-- Helper: an id already in the table leaves the table unchanged; a new id is
appended at the end. -/
theorem id_to_index_mem (tbl : List Nat) (id : Nat) :
    (id_to_index tbl id).1 = if id ∈ tbl then tbl else tbl ++ [id] := by
  unfold id_to_index
  rcases h : tbl.indexOf? id with _ | i
  · have hni : id ∉ tbl := fun hmem =>
      (List.indexOf?_eq_none_iff.mp h id hmem) (by simp)
    simp [hni]
  · have hmem : id ∈ tbl := by
      by_contra hni
      have hnone : tbl.indexOf? id = none :=
        List.indexOf?_eq_none_iff.mpr (fun x hx hbeq => hni ((eq_of_beq hbeq) ▸ hx))
      simp [hnone] at h
    simp [hmem]

/-- Helper: the table built from a stream of ids is a sublist of the stream
(insertion order is preserved), has no duplicates, and contains exactly the
values of the stream. -/
theorem buildIdTable_invariant (ids : List Nat) :
    (buildIdTable ids).Sublist (ids) ∧ (buildIdTable ids).Nodup ∧
    (∀ v, v ∈ buildIdTable ids ↔ v ∈ ids) := by
  suffices h : ∀ (ids acc : List Nat), acc.Nodup →
      (ids.foldl (fun tbl id => (id_to_index tbl id).1) acc).Nodup ∧
      (∃ ext, ext.Sublist ids ∧
        ids.foldl (fun tbl id => (id_to_index tbl id).1) acc = acc ++ ext) ∧
      (∀ v, v ∈ ids.foldl (fun tbl id => (id_to_index tbl id).1) acc ↔
        v ∈ acc ∨ v ∈ ids) by
    obtain ⟨hnd, ⟨ext, hsub, hext⟩, hmem⟩ := h ids [] List.nodup_nil
    refine ⟨?_, hnd, fun v => by simpa using hmem v⟩
    · rw [buildIdTable, hext]; simpa using hsub
  intro ids
  induction ids with
  | nil => intro acc hacc; exact ⟨hacc, ⟨[], List.Sublist.refl _, by simp⟩, by simp⟩
  | cons id rest ih =>
    intro acc hacc
    rw [List.foldl_cons, id_to_index_mem]
    by_cases hmem : id ∈ acc
    · simp only [hmem, if_true]
      obtain ⟨hnd, ⟨ext, hsub, hext⟩, hm⟩ := ih acc hacc
      refine ⟨hnd, ⟨ext, hsub.cons _, hext⟩, fun v => ?_⟩
      rw [hm v]
      constructor
      · rintro (h | h)
        · exact Or.inl h
        · exact Or.inr (List.mem_cons_of_mem _ h)
      · rintro (h | h)
        · exact Or.inl h
        · rcases List.mem_cons.mp h with h | h
          · exact Or.inl (h ▸ hmem)
          · exact Or.inr h
    · simp only [hmem, if_false]
      have hacc' : (acc ++ [id]).Nodup := by
        simp [List.nodup_append, hacc, hmem]
      obtain ⟨hnd, ⟨ext, hsub, hext⟩, hm⟩ := ih (acc ++ [id]) hacc'
      refine ⟨hnd, ⟨id :: ext, hsub.cons₂ _, by simpa using hext⟩, fun v => ?_⟩
      rw [hm v]
      constructor
      · rintro (h | h)
        · rcases List.mem_append.mp h with h | h
          · exact Or.inl h
          · exact Or.inr (by simpa using Or.inl (List.mem_singleton.mp h))
        · exact Or.inr (List.mem_cons_of_mem _ h)
      · rintro (h | h)
        · exact Or.inl (List.mem_append.mpr (Or.inl h))
        · rcases List.mem_cons.mp h with h | h
          · exact Or.inl (List.mem_append.mpr (Or.inr (by simp [h])))
          · exact Or.inr h

/-- C7: the identifier table built through `id_to_index` holds each distinct
uid/gid value exactly once, in insertion order (it is a duplicate-free sublist
of the id stream containing exactly the stream's values), and `id_table_write`
sets the superblock's `id_count` to the number of entries and emits the table
as an array of little-endian 32-bit values, one 4-byte entry per table
element in table order. -/
theorem id_table_correct (ids : List Nat) (super : Super) (sinkSize : Nat) :
    ((buildIdTable ids).Sublist ids ∧ (buildIdTable ids).Nodup ∧
      (∀ v, v ∈ buildIdTable ids ↔ v ∈ ids)) ∧
    (id_table_write (buildIdTable ids) super sinkSize).1.id_count =
      (buildIdTable ids).length ∧
    (id_table_write (buildIdTable ids) super sinkSize).2 =
      (buildIdTable ids).flatMap le32bytes := by
  exact ⟨buildIdTable_invariant ids, rfl, rfl⟩

/-! ## Theorems: C1, C10, C5, C8, C6 -/

/-- C1: `main` initialises `status` to `EXIT_SUCCESS` and every failure path
after the output file is opened returns `status` unchanged, so a run in which
tar processing, the data-writer sync, serialisation, a table write, the
superblock rewrite or the padding fails still exits with status 0 — contrary
to the claim that every fatal error after argument processing yields a
non-zero exit status. -/
theorem main_exit_zero_despite_fatal_error :
    tar2sqfs_main { allOkEnv with processTarOk := false } = (EXIT_SUCCESS, true) ∧
    tar2sqfs_main { allOkEnv with syncOk := false } = (EXIT_SUCCESS, true) ∧
    tar2sqfs_main { allOkEnv with serializeOk := false } = (EXIT_SUCCESS, true) ∧
    tar2sqfs_main { allOkEnv with fragTableOk := false } = (EXIT_SUCCESS, true) ∧
    tar2sqfs_main { allOkEnv with idTableWriteOk := false } = (EXIT_SUCCESS, true) ∧
    tar2sqfs_main { allOkEnv with xattrWriteOk := false } = (EXIT_SUCCESS, true) ∧
    tar2sqfs_main { allOkEnv with superRewriteOk := false } = (EXIT_SUCCESS, true) ∧
    tar2sqfs_main { allOkEnv with paddOk := false } = (EXIT_SUCCESS, true) ∧
    EXIT_SUCCESS = 0 := by
  refine ⟨rfl, rfl, rfl, rfl, rfl, rfl, rfl, rfl, rfl⟩

/-- C10: the `long_opts` table of tar2sqfs.c contains no NULL-name sentinel
row, so on a long option matching no entry the lookup loop of the compat
`getopt_long` runs past the end of the table (an out-of-bounds read) instead
of stopping in bounds and returning `'?'`. -/
theorem getopt_long_lookup_out_of_bounds :
    (∀ o ∈ long_opts, o.name ≠ none) ∧
    longLookup long_opts (r"bogus").toList = .oob ∧
    (getopt_long [r"tar2sqfs", r"--bogus"] short_opts long_opts
        ⟨1, [], none⟩).1 = .oobRead := by
  refine ⟨by decide, by decide, by decide⟩

/-- C5: for the sparse fixture of `tests/tar_sparse.c` (body payload
`record_size = 32768` bytes in the stream, logical size
`st_size = 2097152`), skipping the record drains
`skip_entry(hdr.sb.st_size) = 2097152` bytes while processing it consumes the
padded body of 32768 bytes — the skip path consumes `st_size` rounded up
instead of the record's stream payload `record_size` rounded up, contrary to
the claim that both paths consume the same padded length. -/
theorem sparse_skip_drains_wrong_length :
    process_record false sparseFixtureSkipped = .skipped 2097152 ∧
    process_record false sparseFixtureAccepted = .processed 32768 ∧
    roundUp512 sparseFixtureSkipped.record_size = 32768 ∧
    (2097152 : Nat) ≠ 32768 := by
  refine ⟨by decide, by decide, by decide, by decide⟩

/-- C8 counterexample: `process_args` accepts the command line
`tar2sqfs -b 1024 out.sqfs` — the `'b'` case stores the value without any
range check and the function returns normally with `block_size = 1024`,
although 1024 < 4096; argument processing does not reject small block
sizes. -/
theorem process_args_accepts_small_block_size :
    process_args (fun _ => true) [r"tar2sqfs", r"-b", r"1024", r"out.sqfs"] =
      .ok { initArgs with block_size := 1024, max_backlog := 10 }
        (r"out.sqfs") ∧
    (1024 : Int) < 4096 := by
  refine ⟨by decide, by decide⟩

/-- C8 (amended): `process_args` stores a block-size value below 4096 without
complaint, but `main` still fails before opening the output file, because the
compressor-configuration initialisation (which the spec requires to enforce a
block size of at least 4096) rejects it and `main` returns `EXIT_FAILURE`. -/
theorem small_block_size_fails_before_output (e : MainEnv)
    (h : e.block_size < 4096) :
    tar2sqfs_main e = (EXIT_FAILURE, false) := by
  have hno : ¬ (4096 ≤ e.block_size) := not_le.mpr h
  simp [tar2sqfs_main, compressor_cfg_init_options, hno]

/-- Witness for C8's amended theorem at `block_size = 1024`. -/
theorem small_block_size_fails_before_output_witness :
    ({ allOkEnv with block_size := 1024 } : MainEnv).block_size < 4096 ∧
    tar2sqfs_main { allOkEnv with block_size := 1024 } =
      (EXIT_FAILURE, false) :=
  ⟨by decide, small_block_size_fails_before_output _ (by decide)⟩

/-! ## Tree lemmas for C2 -/

mutual

/-- Mutual induction principle for the nested tree type, tree side. -/
theorem fsTreeInd (P : FsTree → Prop) (Q : List FsTree → Prop)
    (h1 : ∀ l, P (FsTree.leaf l))
    (h2 : ∀ l cs, Q cs → P (FsTree.dir l cs))
    (h3 : Q [])
    (h4 : ∀ c rest, P c → Q rest → Q (c :: rest)) :
    ∀ t, P t
  | .leaf l => h1 l
  | .dir l cs => h2 l cs (fsForestInd P Q h1 h2 h3 h4 cs)

/-- Mutual induction principle for the nested tree type, forest side. -/
theorem fsForestInd (P : FsTree → Prop) (Q : List FsTree → Prop)
    (h1 : ∀ l, P (FsTree.leaf l))
    (h2 : ∀ l cs, Q cs → P (FsTree.dir l cs))
    (h3 : Q [])
    (h4 : ∀ c rest, P c → Q rest → Q (c :: rest)) :
    ∀ cs, Q cs
  | [] => h3
  | c :: rest =>
    h4 c rest (fsTreeInd P Q h1 h2 h3 h4 c) (fsForestInd P Q h1 h2 h3 h4 rest)

end

/-- Helper: without directory children the sub-directory descent emits
nothing, so the `has_subdirs` guard of `serialize_recursive` is equivalent to
running the descent unconditionally. -/
theorem serSubdirsOrder_eq_nil (cs : List FsTree)
    (h : cs.any FsTree.isDirB = false) : serSubdirsOrder cs = [] := by
  induction cs with
  | nil => rfl
  | cons c rest ih =>
    simp only [List.any_cons, Bool.or_eq_false_iff] at h
    simp [serSubdirsOrder, h.1, ih h.2]

/-- Helper: `serialize_recursive` on a directory emits the sub-directory
subtrees followed by all children, with or without the `has_subdirs` guard. -/
theorem serRecOrder_dir (l : Nat) (cs : List FsTree) :
    serRecOrder (.dir l cs) = serSubdirsOrder cs ++ cs.map FsTree.label := by
  by_cases h : cs.any FsTree.isDirB
  · simp [serRecOrder, h]
  · have h' : cs.any FsTree.isDirB = false := by simpa using h
    simp [serRecOrder, h', serSubdirsOrder_eq_nil cs h']

/-- Helper: the root's inode is always the last one serialised. -/
theorem serOrder_eq (t : FsTree) : serOrder t = serRecOrder t ++ [t.label] := by
  cases t with
  | leaf l => simp [serOrder, serRecOrder, FsTree.isDirB]
  | dir l cs => simp [serOrder, FsTree.isDirB]

/-- Helper: the inode-number assignment order visits each node exactly once
(forest form). -/
theorem genOrder_perm_forest :
    ∀ cs, (genNonDirs cs ++ genSubdirs cs).Perm (labelsList cs) :=
  fsForestInd (fun t => (genOrder t).Perm (allLabels t))
    (fun cs => (genNonDirs cs ++ genSubdirs cs).Perm (labelsList cs))
    (fun l => by simp [genOrder, allLabels])
    (fun l cs hQ => by
      simp only [genOrder, allLabels, ← List.append_assoc]
      exact (List.perm_append_singleton _ _).trans (hQ.cons l))
    (by simp [genNonDirs, genSubdirs, labelsList])
    (fun c rest hP hQ => by
      cases c with
      | leaf lc =>
        have hnd : genNonDirs (FsTree.leaf lc :: rest) =
            lc :: genNonDirs rest := by
          simp [genNonDirs, FsTree.isDirB, FsTree.label]
        have hsd : genSubdirs (FsTree.leaf lc :: rest) = genSubdirs rest := by
          simp [genSubdirs, FsTree.isDirB]
        rw [hnd, hsd]
        show (lc :: (genNonDirs rest ++ genSubdirs rest)).Perm
          (labelsList (FsTree.leaf lc :: rest))
        have : labelsList (FsTree.leaf lc :: rest) =
            lc :: labelsList rest := by simp [labelsList, allLabels]
        rw [this]
        exact hQ.cons lc
      | dir lc cs' =>
        have hnd : genNonDirs (FsTree.dir lc cs' :: rest) =
            genNonDirs rest := by
          simp [genNonDirs, FsTree.isDirB]
        have hsd : genSubdirs (FsTree.dir lc cs' :: rest) =
            genOrder (FsTree.dir lc cs') ++ genSubdirs rest := by
          simp [genSubdirs, FsTree.isDirB]
        have h3 : labelsList (FsTree.dir lc cs' :: rest) =
            allLabels (FsTree.dir lc cs') ++ labelsList rest := by
          simp [labelsList]
        rw [hnd, hsd, h3, ← List.append_assoc]
        refine List.Perm.trans
          (List.Perm.append_right _ List.perm_append_comm) ?_
        rw [List.append_assoc]
        exact List.Perm.append hP hQ)

/-- Helper: the inode-number assignment order visits each node exactly once. -/
theorem genOrder_perm : ∀ t, (genOrder t).Perm (allLabels t) :=
  fsTreeInd (fun t => (genOrder t).Perm (allLabels t))
    (fun cs => (genNonDirs cs ++ genSubdirs cs).Perm (labelsList cs))
    (fun l => by simp [genOrder, allLabels])
    (fun l cs hQ => by
      simp only [genOrder, allLabels, ← List.append_assoc]
      exact (List.perm_append_singleton _ _).trans (hQ.cons l))
    (by simp [genNonDirs, genSubdirs, labelsList])
    (fun c rest hP hQ => by
      have := genOrder_perm_forest (c :: rest)
      exact this)

/-- Helper: the serialisation order visits each node exactly once (forest
form). -/
theorem serOrder_perm_forest :
    ∀ cs, (serSubdirsOrder cs ++ cs.map FsTree.label).Perm (labelsList cs) :=
  fsForestInd (fun t => (serRecOrder t ++ [t.label]).Perm (allLabels t))
    (fun cs => (serSubdirsOrder cs ++ cs.map FsTree.label).Perm (labelsList cs))
    (fun l => by simp [serRecOrder, allLabels, FsTree.label])
    (fun l cs hQ => by
      simp only [serRecOrder_dir, allLabels, FsTree.label]
      exact (List.perm_append_singleton _ _).trans (hQ.cons l))
    (by simp [serSubdirsOrder, labelsList])
    (fun c rest hP hQ => by
      have h3 : labelsList (c :: rest) = allLabels c ++ labelsList rest := by
        simp [labelsList]
      show (serSubdirsOrder (c :: rest) ++
        (c :: rest).map FsTree.label).Perm (labelsList (c :: rest))
      rw [h3]
      cases c with
      | leaf lc =>
        have hsd : serSubdirsOrder (FsTree.leaf lc :: rest) =
            serSubdirsOrder rest := by simp [serSubdirsOrder, FsTree.isDirB]
        have h4 : allLabels (FsTree.leaf lc) ++ labelsList rest =
            FsTree.label (FsTree.leaf lc) :: labelsList rest := by
          simp [allLabels, FsTree.label]
        rw [hsd, List.map_cons, h4]
        exact List.perm_middle.trans (hQ.cons _)
      | dir lc cs' =>
        have hsd : serSubdirsOrder (FsTree.dir lc cs' :: rest) =
            serRecOrder (FsTree.dir lc cs') ++ serSubdirsOrder rest := by
          simp [serSubdirsOrder, FsTree.isDirB]
        rw [hsd, List.map_cons]
        refine List.Perm.trans List.perm_middle ?_
        have e1 : FsTree.label (FsTree.dir lc cs') ::
              ((serRecOrder (FsTree.dir lc cs') ++ serSubdirsOrder rest) ++
                rest.map FsTree.label) =
            (FsTree.label (FsTree.dir lc cs') ::
              serRecOrder (FsTree.dir lc cs')) ++
              (serSubdirsOrder rest ++ rest.map FsTree.label) := by
          simp [List.append_assoc]
        rw [e1]
        exact List.Perm.append
          ((List.perm_append_singleton _ _).symm.trans hP) hQ)

/-- Helper: the serialisation order visits each node exactly once. -/
theorem serOrder_perm (t : FsTree) : (serOrder t).Perm (allLabels t) := by
  rw [serOrder_eq]
  cases t with
  | leaf l => simp [serRecOrder, allLabels, FsTree.label]
  | dir l cs =>
    simp only [serRecOrder_dir, allLabels, FsTree.label]
    exact (List.perm_append_singleton _ _).trans
      ((serOrder_perm_forest cs).cons l)

/-- Helper: a node's label occurs in its own assignment order. -/
theorem label_mem_genOrder (t : FsTree) : t.label ∈ genOrder t := by
  cases t with
  | leaf l => simp [genOrder, FsTree.label]
  | dir l cs => simp [genOrder, FsTree.label]

/-- Helper: the assignment order of a directory child is a contiguous segment
of the sub-directory descent. -/
theorem genSubdirs_contig (cs : List FsTree) (c : FsTree) (hc : c ∈ cs)
    (hd : c.isDirB = true) :
    ∃ U V, genSubdirs cs = U ++ genOrder c ++ V := by
  induction cs with
  | nil => cases hc
  | cons d rest ih =>
    rcases List.mem_cons.mp hc with rfl | hc'
    · exact ⟨[], genSubdirs rest, by simp [genSubdirs, hd]⟩
    · obtain ⟨U, V, hUV⟩ := ih hc'
      exact ⟨(if d.isDirB then genOrder d else []) ++ U, V, by
        simp [genSubdirs, hUV, List.append_assoc]⟩

/-- Helper: the emission order of a directory child's proper descendants is a
contiguous segment of the serialiser's sub-directory descent. -/
theorem serSubdirsOrder_contig (cs : List FsTree) (c : FsTree) (hc : c ∈ cs)
    (hd : c.isDirB = true) :
    ∃ U V, serSubdirsOrder cs = U ++ serRecOrder c ++ V := by
  induction cs with
  | nil => cases hc
  | cons d rest ih =>
    rcases List.mem_cons.mp hc with rfl | hc'
    · exact ⟨[], serSubdirsOrder rest, by simp [serSubdirsOrder, hd]⟩
    · obtain ⟨U, V, hUV⟩ := ih hc'
      exact ⟨(if d.isDirB then serRecOrder d else []) ++ U, V, by
        simp [serSubdirsOrder, hUV, List.append_assoc]⟩

/-- Helper: a non-directory child's label is listed among the non-directory
children. -/
theorem label_mem_genNonDirs (cs : List FsTree) (c : FsTree) (hc : c ∈ cs)
    (hd : c.isDirB = false) : c.label ∈ genNonDirs cs := by
  simp only [genNonDirs, List.mem_map, List.mem_filter]
  exact ⟨c, ⟨hc, by simp [hd]⟩, rfl⟩

/-- Helper: each child's assignment order is a contiguous segment of its
parent directory's. -/
theorem genOrder_child_contig (l : Nat) (cs : List FsTree) (c : FsTree)
    (hc : c ∈ cs) : ∃ U V, genOrder (.dir l cs) = U ++ genOrder c ++ V := by
  by_cases hd : c.isDirB
  · obtain ⟨U, V, hUV⟩ := genSubdirs_contig cs c hc hd
    exact ⟨genNonDirs cs ++ U, V ++ [l], by
      simp [genOrder, hUV, List.append_assoc]⟩
  · have hd' : c.isDirB = false := by simpa using hd
    obtain ⟨U, V, hUV⟩ := List.append_of_mem (label_mem_genNonDirs cs c hc hd')
    have hgc : genOrder c = [c.label] := by
      cases c with
      | leaf lz => simp [genOrder, FsTree.label]
      | dir lz cz => simp [FsTree.isDirB] at hd'
    exact ⟨U, V ++ genSubdirs cs ++ [l], by
      simp [genOrder, hUV, hgc, List.append_assoc]⟩

/-- Helper: the assignment order of any subtree is a contiguous segment of
the whole tree's. -/
theorem occurs_split_gen (s t : FsTree) (h : Occurs s t) :
    ∃ U V, genOrder t = U ++ genOrder s ++ V := by
  induction h with
  | refl => exact ⟨[], [], by simp⟩
  | child hc hocc ih =>
    obtain ⟨U1, V1, h1⟩ := ih
    obtain ⟨U2, V2, h2⟩ := genOrder_child_contig _ _ _ hc
    exact ⟨U2 ++ U1, V1 ++ V2, by rw [h2, h1]; simp [List.append_assoc]⟩

/-- Helper: in a duplicate-free list split around `p`, anything left of `p`
has a smaller index than `p`. -/
theorem indexOf_lt_of_split (A B : List Nat) (x p : Nat)
    (hnd : (A ++ p :: B).Nodup) (hx : x ∈ A) :
    (A ++ p :: B).indexOf x < (A ++ p :: B).indexOf p := by
  have hpA : p ∉ A := by
    intro hpA
    exact (List.disjoint_of_nodup_append hnd) hpA (List.mem_cons_self p B)
  rw [List.indexOf_append_of_mem hx, List.indexOf_append_of_not_mem hpA,
    List.indexOf_cons_self]
  have h1 : A.indexOf x < A.length := List.indexOf_lt_length.mpr hx
  omega

/-- Helper: the assignment order is duplicate-free on a tree with distinct
labels. -/
theorem genOrder_nodup (t : FsTree) (h : (allLabels t).Nodup) :
    (genOrder t).Nodup := ((genOrder_perm t).nodup_iff).mpr h

/-- Helper: the serialisation order is duplicate-free on a tree with distinct
labels. -/
theorem serOrder_nodup (t : FsTree) (h : (allLabels t).Nodup) :
    (serOrder t).Nodup := ((serOrder_perm t).nodup_iff).mpr h

/-- Helper: a subtree of a leaf is that leaf. -/
theorem occurs_leaf (s : FsTree) (l : Nat) (h : Occurs s (.leaf l)) :
    s = .leaf l := by
  cases h with
  | refl => rfl

/-- Helper: for any directory subtree `dir p cs` of `t`, the serialisation
order splits as `A ++ p :: B` with every label of the directory's descendants
lying in `A` — every descendant's inode is emitted before the directory's
own. -/
theorem occurs_ser_split (t : FsTree) (p : Nat) (cs : List FsTree)
    (h : Occurs (.dir p cs) t) :
    ∃ A B, serOrder t = A ++ p :: B ∧ ∀ x ∈ labelsList cs, x ∈ A := by
  induction h with
  | refl =>
    refine ⟨serRecOrder (.dir p cs), [], ?_, ?_⟩
    · rw [serOrder_eq]
      rfl
    · intro x hx
      rw [serRecOrder_dir]
      exact ((serOrder_perm_forest cs).mem_iff).mpr hx
  | child hc hocc ih =>
    rename_i c l cs'
    obtain ⟨A1, B1, h1, hsub1⟩ := ih
    cases c with
    | leaf lz => exact absurd (occurs_leaf _ _ hocc) (by simp)
    | dir lz cz =>
      obtain ⟨U, V, hUV⟩ := serSubdirsOrder_contig cs' _ hc rfl
      have hser : serRecOrder (FsTree.dir lz cz) ++ [lz] = A1 ++ p :: B1 := by
        have h2 := serOrder_eq (FsTree.dir lz cz)
        rw [h1] at h2
        simpa [FsTree.label] using h2.symm
      rcases List.eq_nil_or_concat B1 with rfl | ⟨L, b, rfl⟩
      · have hA1 : A1 = serRecOrder (FsTree.dir lz cz) := by
          have := congrArg List.dropLast hser
          simpa using this.symm
        have hp : lz = p := by
          have := congrArg List.getLast? hser
          simpa using this
        have hmem : p ∈ cs'.map FsTree.label := by
          rw [← hp]
          exact List.mem_map.mpr ⟨FsTree.dir lz cz, hc, rfl⟩
        obtain ⟨M1, M2, hM⟩ := List.append_of_mem hmem
        refine ⟨serSubdirsOrder cs' ++ M1, M2 ++ [l], ?_, ?_⟩
        · rw [serOrder_eq]
          show serRecOrder (FsTree.dir l cs') ++ [l] = _
          rw [serRecOrder_dir, hM]
          simp [List.append_assoc]
        · intro x hx
          have hx1 : x ∈ A1 := hsub1 x hx
          rw [hA1] at hx1
          have : x ∈ serSubdirsOrder cs' := by
            rw [hUV]
            exact List.mem_append.mpr (Or.inl (List.mem_append.mpr (Or.inr hx1)))
          exact List.mem_append.mpr (Or.inl this)
      · rw [List.concat_eq_append] at hser
        have hconcat : (A1 ++ p :: L) ++ [b] =
            serRecOrder (FsTree.dir lz cz) ++ [lz] := by
          rw [hser]
          simp
        have hrec : serRecOrder (FsTree.dir lz cz) = A1 ++ p :: L := by
          have hd1 : ((A1 ++ p :: L) ++ [b]).dropLast = A1 ++ p :: L :=
            List.dropLast_concat
          have hd2 : (serRecOrder (FsTree.dir lz cz) ++ [lz]).dropLast =
              serRecOrder (FsTree.dir lz cz) := List.dropLast_concat
          rw [← hd1, hconcat, hd2]
        refine ⟨U ++ A1, L ++ V ++ cs'.map FsTree.label ++ [l], ?_, ?_⟩
        · rw [serOrder_eq]
          show serRecOrder (FsTree.dir l cs') ++ [l] = _
          rw [serRecOrder_dir, hUV, hrec]
          simp [List.append_assoc]
        · intro x hx
          exact List.mem_append.mpr (Or.inr (hsub1 x hx))

/-- Helper: mapping each element of a duplicate-free list to its index gives
the full index range. -/
theorem map_indexOf_eq_range (l : List Nat) (h : l.Nodup) :
    l.map (fun x => l.indexOf x) = List.range l.length := by
  apply List.ext_getElem (by simp)
  intro i h1 h2
  simp only [List.getElem_map, List.getElem_range]
  exact List.indexOf_getElem h i (by simpa using h1)

/-- C2: on a tree with distinct labels the inode numbers assigned by
`gen_inode_table` (position in the visit order plus one) form a permutation
of `1..=inode_count`; every directory's inode number strictly exceeds each of
its children's; the serialiser emits every descendant of a directory before
the directory itself; and the root inode is serialised last. -/
theorem inode_numbers_and_serialisation_order (t : FsTree)
    (hnd : (allLabels t).Nodup) :
    ((allLabels t).map (inodeNum t)).Perm
      (List.range' 1 (allLabels t).length) ∧
    (∀ p cs c, Occurs (.dir p cs) t → c ∈ cs →
      inodeNum t c.label < inodeNum t p) ∧
    (∀ p cs x, Occurs (.dir p cs) t → x ∈ labelsList cs →
      (serOrder t).indexOf x < (serOrder t).indexOf p) ∧
    (serOrder t).getLast? = some t.label := by
  have hperm := genOrder_perm t
  have hgn : (genOrder t).Nodup := genOrder_nodup t hnd
  refine ⟨?_, ?_, ?_, ?_⟩
  · have h1 : (genOrder t).map (inodeNum t) =
        List.range' 1 (genOrder t).length := by
      have h2 : (genOrder t).map (inodeNum t) =
          ((genOrder t).map (fun x => (genOrder t).indexOf x)).map
            (fun i => i + 1) := by
        simp [List.map_map, inodeNum, Function.comp]
      rw [h2, map_indexOf_eq_range _ hgn, List.range'_eq_map_range]
      exact List.map_congr_left (fun x _ => Nat.add_comm x 1)
    have h3 : ((allLabels t).map (inodeNum t)).Perm
        ((genOrder t).map (inodeNum t)) := (hperm.symm).map _
    rw [h1, hperm.length_eq] at h3
    exact h3
  · intro p cs c hocc hc
    obtain ⟨U, V, hUV⟩ := occurs_split_gen _ t hocc
    have hsplit : genOrder t =
        (U ++ (genNonDirs cs ++ genSubdirs cs)) ++ p :: V := by
      rw [hUV]
      show U ++ genOrder (FsTree.dir p cs) ++ V = _
      rw [genOrder]
      simp [List.append_assoc]
    have hxA : c.label ∈ U ++ (genNonDirs cs ++ genSubdirs cs) := by
      by_cases hd : c.isDirB
      · obtain ⟨U2, V2, h2⟩ := genSubdirs_contig cs c hc hd
        have : c.label ∈ genSubdirs cs := by
          rw [h2]
          exact List.mem_append.mpr
            (Or.inl (List.mem_append.mpr (Or.inr (label_mem_genOrder c))))
        exact List.mem_append.mpr (Or.inr (List.mem_append.mpr (Or.inr this)))
      · have hd' : c.isDirB = false := by simpa using hd
        exact List.mem_append.mpr (Or.inr (List.mem_append.mpr
          (Or.inl (label_mem_genNonDirs cs c hc hd'))))
    have hnd2 : ((U ++ (genNonDirs cs ++ genSubdirs cs)) ++ p :: V).Nodup :=
      hsplit ▸ hgn
    have hlt := indexOf_lt_of_split _ _ _ _ hnd2 hxA
    simp only [inodeNum, hsplit]
    omega
  · intro p cs x hocc hx
    obtain ⟨A, B, hAB, hsub⟩ := occurs_ser_split t p cs hocc
    have hnd2 : (A ++ p :: B).Nodup := hAB ▸ serOrder_nodup t hnd
    rw [hAB]
    exact indexOf_lt_of_split _ _ _ _ hnd2 (hsub x hx)
  · rw [serOrder_eq]
    exact List.getLast?_concat _

/-- Witness for C2 on the sample tree. -/
theorem inode_numbers_and_serialisation_order_witness :
    (allLabels sampleTree).Nodup ∧
    (((allLabels sampleTree).map (inodeNum sampleTree)).Perm
        (List.range' 1 (allLabels sampleTree).length) ∧
      (∀ p cs c, Occurs (.dir p cs) sampleTree → c ∈ cs →
        inodeNum sampleTree c.label < inodeNum sampleTree p) ∧
      (∀ p cs x, Occurs (.dir p cs) sampleTree → x ∈ labelsList cs →
        (serOrder sampleTree).indexOf x < (serOrder sampleTree).indexOf p) ∧
      (serOrder sampleTree).getLast? = some sampleTree.label) :=
  ⟨by decide, inode_numbers_and_serialisation_order sampleTree (by decide)⟩

/-- Helper: a non-breaking sparse scan starting on a non-empty map implies
the head extent starts at or after the starting position. -/
theorem sparse_scan_head (ext : Nat × Nat) (rest : List (Nat × Nat))
    (pos cnt : Nat) (h : (sparse_scan (ext :: rest) pos cnt).1 = false) :
    pos ≤ ext.1 := by
  by_contra hle
  push_neg at hle
  simp [sparse_scan, hle] at h

/-- Helper: a non-breaking sparse scan accumulates the total extent length. -/
theorem sparse_scan_sum : ∀ (m : List (Nat × Nat)) (pos cnt : Nat),
    (sparse_scan m pos cnt).1 = false →
    (sparse_scan m pos cnt).2 = cnt + extentLen m
  | [], _, _, _ => by simp [sparse_scan, extentLen]
  | ext :: rest, pos, cnt, h => by
    have hnl : ¬ ext.1 < pos := by
      intro hlt; simp [sparse_scan, hlt] at h
    have hrest : (sparse_scan rest (ext.1 + ext.2) (cnt + ext.2)).1 = false := by
      simpa [sparse_scan, hnl] using h
    simp only [sparse_scan, if_neg hnl]
    rw [sparse_scan_sum rest _ _ hrest]
    simp [extentLen]
    omega

/-- Helper: a non-breaking sparse scan implies ascending extent offsets. -/
theorem sparse_scan_ascending : ∀ (m : List (Nat × Nat)) (pos cnt : Nat),
    (sparse_scan m pos cnt).1 = false →
    List.Chain' (fun a b => a ≤ b) (m.map Prod.fst)
  | [], _, _, _ => by simp
  | ext :: rest, pos, cnt, h => by
    have hnl : ¬ ext.1 < pos := by
      intro hlt; simp [sparse_scan, hlt] at h
    have hrest : (sparse_scan rest (ext.1 + ext.2) (cnt + ext.2)).1 = false := by
      simpa [sparse_scan, hnl] using h
    have ih := sparse_scan_ascending rest _ _ hrest
    rw [List.map_cons]
    refine List.chain'_cons'.mpr ⟨?_, ih⟩
    intro b hb
    rcases rest with _ | ⟨e2, rest'⟩
    · simp at hb
    · have hhead := sparse_scan_head e2 rest' _ _ hrest
      simp at hb
      omega

/-- Helper: every record that is invalid in the claim's sense is flagged for
skipping by `process_tar_ball`. -/
theorem claim_invalid_skips (r : TarRecord) (h : ClaimInvalid r) :
    record_skip r = true := by
  rcases h with h | h | ⟨m, hm, h⟩
  · rcases h with h | h
    · simp [record_skip, h]
    · simp [record_skip, h]
  · simp [record_skip, h]
  · have hscan : ((sparse_scan m (m.headD (0, 0)).1 0).1 ||
        (sparse_scan m (m.headD (0, 0)).1 0).2 != r.record_size) = true := by
      by_cases hb : (sparse_scan m (m.headD (0, 0)).1 0).1 = true
      · rw [hb, Bool.true_or]
      · have hb' : (sparse_scan m (m.headD (0, 0)).1 0).1 = false := by
          revert hb; cases (sparse_scan m (m.headD (0, 0)).1 0).1 <;> simp
        rcases h with h | h
        · exact absurd (sparse_scan_ascending m _ _ hb') h
        · rw [hb', Bool.false_or, sparse_scan_sum m _ _ hb']
          simpa [bne_iff_ne] using h
    have hgoal : record_skip r =
        ((r.nameNull || !r.canonOk) || r.unknown_record ||
          ((sparse_scan m (m.headD (0, 0)).1 0).1 ||
            (sparse_scan m (m.headD (0, 0)).1 0).2 != r.record_size)) := by
      simp only [record_skip, hm]
    rw [hgoal, hscan]
    simp

/-- C4: every decoded record that is invalid in the claim's sense (NULL or
non-canonicalisable name, unknown type, sparse extents out of ascending order
or with lengths not summing to `record_size`) aborts the run when `no-skip`
is set, and is otherwise skipped — its body drained with `skip_entry` —
while processing continues with the remaining records. -/
theorem invalid_record_policy (r : TarRecord) (rest : List TarRecord)
    (h : ClaimInvalid r) :
    process_tar_ball true (r :: rest) = none ∧
    process_tar_ball false (r :: rest) =
      (process_tar_ball false rest).map
        (fun tail => RecResult.skipped (skip_entry_len r.st_size) :: tail) := by
  have hs := claim_invalid_skips r h
  have h1 : process_record true r = .abort := by simp [process_record, hs]
  have h2 : process_record false r = .skipped (skip_entry_len r.st_size) := by
    simp [process_record, hs]
  exact ⟨by simp [process_tar_ball, h1], by simp [process_tar_ball, h2]⟩

/-- Witness for C4 on a record of unknown type. -/
theorem invalid_record_policy_witness :
    ClaimInvalid unknownRecord ∧
    (process_tar_ball true [unknownRecord] = none ∧
      process_tar_ball false [unknownRecord] =
        (process_tar_ball false []).map
          (fun tail =>
            RecResult.skipped (skip_entry_len unknownRecord.st_size) ::
              tail)) :=
  ⟨Or.inr (Or.inl rfl),
    invalid_record_policy unknownRecord [] (Or.inr (Or.inl rfl))⟩

/-- Helper: the 96-byte length of the encoded superblock. -/
theorem superBytes_length (s : Super) : (superBytes s).length = 96 := by
  simp [superBytes, le32bytes, le64bytes]

/-- Helper: rewriting the superblock at offset 0 of a file of at least 96
bytes does not change the file's size. -/
theorem sqfs_super_write_length (s : Super) (file : List Nat)
    (h : 96 ≤ file.length) :
    (sqfs_super_write s file).length = file.length := by
  simp [sqfs_super_write, writeAt, superBytes_length]
  omega

/-- Helper: appending `(b - n % b) % b` zero bytes to `n` bytes yields a
multiple of `b`. -/
theorem pad_to_multiple (n b : Nat) (hb : 0 < b) :
    (n + (b - n % b) % b) % b = 0 := by
  rcases Nat.eq_zero_or_pos (n % b) with h | h
  · rw [h, Nat.sub_zero, Nat.mod_self, Nat.add_zero, h]
  · have hlt : n % b < b := Nat.mod_lt _ hb
    have he : (b - n % b) % b = b - n % b := Nat.mod_eq_of_lt (by omega)
    have h2 : n % b + (b - n % b) = b := Nat.add_sub_cancel' (Nat.le_of_lt hlt)
    rw [he]
    have h3 : n + (b - n % b) = b * (n / b + 1) := by
      calc n + (b - n % b)
          = b * (n / b) + n % b + (b - n % b) := by rw [Nat.div_add_mod]
        _ = b * (n / b) + (n % b + (b - n % b)) := by rw [Nat.add_assoc]
        _ = b * (n / b) + b := by rw [h2]
        _ = b * (n / b + 1) := by ring
    rw [h3, Nat.mul_mod_right]

/-- C6: at the end of a successful run, `bytes_used` is recorded as the file
size just before the superblock rewrite and the padding; the rewrite at
offset 0 leaves the size unchanged; the final image is the rewritten file
followed by zero bytes and its size is a multiple of `devblksize`. -/
theorem finish_image_correct (super : Super) (file : List Nat)
    (devblksize : Nat) (h96 : 96 ≤ file.length) (hdev : 0 < devblksize) :
    (finishImage super file devblksize).1.bytes_used = file.length ∧
    (finishImage super file devblksize).2.length % devblksize = 0 ∧
    (finishImage super file devblksize).2 =
      sqfs_super_write { super with bytes_used := file.length } file ++
        List.replicate ((devblksize - file.length % devblksize) % devblksize)
          0 ∧
    (sqfs_super_write { super with bytes_used := file.length } file).length =
      file.length := by
  refine ⟨rfl, ?_, rfl, sqfs_super_write_length _ _ h96⟩
  show (sqfs_super_write { super with bytes_used := file.length } file ++
      List.replicate ((devblksize - file.length % devblksize) % devblksize)
        0).length % devblksize = 0
  rw [List.length_append, List.length_replicate,
    sqfs_super_write_length _ _ h96]
  exact pad_to_multiple _ _ hdev

/-- Witness for C6 on a 100-byte file and device block size 8. -/
theorem finish_image_correct_witness :
    96 ≤ (List.replicate 100 0 : List Nat).length ∧ 0 < 8 ∧
    ((finishImage sampleSuper (List.replicate 100 0) 8).1.bytes_used =
        (List.replicate 100 0 : List Nat).length ∧
      (finishImage sampleSuper (List.replicate 100 0) 8).2.length % 8 = 0 ∧
      (finishImage sampleSuper (List.replicate 100 0) 8).2 =
        sqfs_super_write
            { sampleSuper with
                bytes_used := (List.replicate 100 0 : List Nat).length }
            (List.replicate 100 0) ++
          List.replicate
            ((8 - (List.replicate 100 0 : List Nat).length % 8) % 8) 0 ∧
      (sqfs_super_write
          { sampleSuper with
              bytes_used := (List.replicate 100 0 : List Nat).length }
          (List.replicate 100 0)).length =
        (List.replicate 100 0 : List Nat).length) :=
  ⟨by decide, by decide,
    finish_image_correct sampleSuper (List.replicate 100 0) 8 (by decide)
      (by decide)⟩

/-! ## Serialiser lemmas for C3 -/

/-- Helper: replaying no inode records leaves the writer unchanged. -/
theorem imAfter_nil (e : SerEnv) (mw : MetaWriter) : imAfter e [] mw = mw :=
  rfl

/-- Helper: replay distributes over concatenation of the emission order. -/
theorem imAfter_append (e : SerEnv) (a b : List Nat) (mw : MetaWriter) :
    imAfter e (a ++ b) mw = imAfter e b (imAfter e a mw) := by
  simp [imAfter, List.foldl_append]

/-- Helper: the reference specification distributes over concatenation. -/
theorem refsSpec_append (e : SerEnv) (a b : List Nat) (mw : MetaWriter) :
    refsSpec e (a ++ b) mw =
      refsSpec e a mw ++ refsSpec e b (imAfter e a mw) := by
  induction a generalizing mw with
  | nil => simp [refsSpec, imAfter]
  | cons x rest ih => simp [refsSpec, imAfter, ih]

/-- Helper: the empty serialisation segment satisfies the invariant. -/
theorem serInv_nil (e : SerEnv) (s : SerState) : SerInv e [] s s :=
  ⟨rfl, by simp [refsSpec], rfl, rfl⟩

/-- Helper: the invariant composes over consecutive segments. -/
theorem serInv_comp (e : SerEnv) (o1 o2 : List Nat) (s s1 s2 : SerState)
    (h1 : SerInv e o1 s s1) (h2 : SerInv e o2 s1 s2) :
    SerInv e (o1 ++ o2) s s2 := by
  obtain ⟨ha, hb, hc, hd⟩ := h1
  obtain ⟨ha2, hb2, hc2, hd2⟩ := h2
  refine ⟨?_, ?_, ?_, ?_⟩
  · rw [imAfter_append, ← ha, ha2]
  · rw [refsSpec_append, ← ha, ← List.append_assoc, ← hb, hb2]
  · omega
  · omega

/-- Helper: `serialize_tree_node` satisfies the invariant for its one node. -/
theorem serialize_tree_node_inv (e : SerEnv) (d : Bool) (l : Nat)
    (s : SerState) : SerInv e [l] s (serialize_tree_node e d l s).1 := by
  cases d <;>
    refine ⟨rfl, by simp [serialize_tree_node, refsSpec], ?_, ?_⟩ <;>
    simp [serialize_tree_node, mwAppend] <;> omega

/-- Helper: `serialize_tree_node` records the inode writer's position at the
moment of the write as the node's inode reference. -/
theorem serialize_tree_node_ref (e : SerEnv) (d : Bool) (l : Nat)
    (s : SerState) : (serialize_tree_node e d l s).2 = encodeRef s.im := by
  cases d <;> rfl

/-- Helper: the serialisation loop over all children of a directory satisfies
the invariant for the child labels in list order. -/
theorem serializeChildren_inv (e : SerEnv) :
    ∀ (cs : List FsTree) (s : SerState),
      SerInv e (cs.map FsTree.label) s (serializeChildren e cs s)
  | [], s => serInv_nil e s
  | c :: rest, s => by
    have h1 := serialize_tree_node_inv e c.isDirB c.label s
    have h2 := serializeChildren_inv e rest
      (serialize_tree_node e c.isDirB c.label s).1
    have h3 := serInv_comp e _ _ _ _ _ h1 h2
    simpa [serializeChildren] using h3

/-- Helper: the recursive descent of the serialiser satisfies the invariant
for its emission order (tree side). -/
theorem serialize_recursive_inv (e : SerEnv) :
    ∀ t s, SerInv e (serRecOrder t) s (serialize_recursive e t s) :=
  fsTreeInd
    (fun t => ∀ s, SerInv e (serRecOrder t) s (serialize_recursive e t s))
    (fun cs => ∀ s,
      SerInv e (serSubdirsOrder cs) s (serializeSubdirs e cs s))
    (fun l s => by
      have := serInv_nil e s
      simpa [serialize_recursive, serRecOrder] using this)
    (fun l cs hQ s => by
      by_cases hany : cs.any FsTree.isDirB
      · have h1 := hQ s
        have h2 := serializeChildren_inv e cs (serializeSubdirs e cs s)
        have h3 := serInv_comp e _ _ _ _ _ h1 h2
        have h4 : serRecOrder (FsTree.dir l cs) =
            serSubdirsOrder cs ++ cs.map FsTree.label := serRecOrder_dir l cs
        rw [h4]
        simpa [serialize_recursive, hany] using h3
      · have h2 := serializeChildren_inv e cs s
        have h4 : serRecOrder (FsTree.dir l cs) =
            serSubdirsOrder cs ++ cs.map FsTree.label := serRecOrder_dir l cs
        rw [h4, serSubdirsOrder_eq_nil cs (by simpa using hany)]
        simpa [serialize_recursive, hany] using h2)
    (fun s => by
      have := serInv_nil e s
      simpa [serializeSubdirs, serSubdirsOrder] using this)
    (fun c rest hP hQ s => by
      by_cases hd : c.isDirB
      · have h1 := hP s
        have h2 := hQ (serialize_recursive e c s)
        have h3 := serInv_comp e _ _ _ _ _ h1 h2
        have h4 : serSubdirsOrder (c :: rest) =
            serRecOrder c ++ serSubdirsOrder rest := by
          simp [serSubdirsOrder, hd]
        rw [h4]
        simpa [serializeSubdirs, hd] using h3
      · have h2 := hQ s
        have h4 : serSubdirsOrder (c :: rest) = serSubdirsOrder rest := by
          simp [serSubdirsOrder, hd]
        rw [h4]
        simpa [serializeSubdirs, hd] using h2)

/-- Helper: flushing advances the physical offset by exactly the emitted
bytes. -/
theorem mwFlush_blockOffset (c : Nat → Nat) (m : MetaWriter) :
    (mwFlush c m).1.blockOffset = m.blockOffset + (mwFlush c m).2 := by
  unfold mwFlush
  split <;> simp

/-- Helper: after a flush the buffer is empty. -/
theorem mwFlush_bufFill (c : Nat → Nat) (m : MetaWriter) :
    (mwFlush c m).1.bufFill = 0 := by
  unfold mwFlush
  split <;> simp_all

/-- C3: `sqfs_serialize_fstree` records `inode_table_start` as the file size
before emitting any inode; the recorded inode references replay, node by node
in emission order (the root's inode last), the inode metadata writer's
position `(block_offset << 16) | intra_block_offset` at the moment each
inode is written; both metadata writers are flushed after the root's inode;
`directory_table_start` is recorded only after both flushes, as the file size
once the file has grown by exactly the physical inode table; and the
directory writer's buffered output is appended only after that, growing the
file by exactly the physical directory table. -/
theorem serialize_fstree_execution_order (e : SerEnv) (root : FsTree)
    (s0 : SerState) :
    (sqfs_serialize_fstree e root s0).inode_table_start = s0.sinkSize ∧
    (sqfs_serialize_fstree e root s0).state.refs =
      s0.refs ++ refsSpec e (serOrder root) s0.im ∧
    (sqfs_serialize_fstree e root s0).root_inode_ref =
      encodeRef
        (imAfter e (if root.isDirB then serRecOrder root else []) s0.im) ∧
    (sqfs_serialize_fstree e root s0).state.im =
      (mwFlush e.comp (imAfter e (serOrder root) s0.im)).1 ∧
    (sqfs_serialize_fstree e root s0).state.im.bufFill = 0 ∧
    (sqfs_serialize_fstree e root s0).state.dm.bufFill = 0 ∧
    (sqfs_serialize_fstree e root s0).directory_table_start +
        s0.im.blockOffset =
      s0.sinkSize + (sqfs_serialize_fstree e root s0).state.im.blockOffset ∧
    (sqfs_serialize_fstree e root s0).state.sinkSize + s0.dm.blockOffset =
      (sqfs_serialize_fstree e root s0).directory_table_start + s0.dmMem +
        (sqfs_serialize_fstree e root s0).state.dm.blockOffset ∧
    (sqfs_serialize_fstree e root s0).state.dmMem = 0 := by
  have h1 : SerInv e (if root.isDirB then serRecOrder root else []) s0
      (if root.isDirB then serialize_recursive e root s0 else s0) := by
    by_cases hd : root.isDirB
    · simpa [hd] using serialize_recursive_inv e root s0
    · simpa [hd] using serInv_nil e s0
  have h2 := serialize_tree_node_inv e root.isDirB root.label
    (if root.isDirB then serialize_recursive e root s0 else s0)
  have hkey : SerInv e (serOrder root) s0
      (serialize_tree_node e root.isDirB root.label
        (if root.isDirB then serialize_recursive e root s0 else s0)).1 :=
    serInv_comp e _ _ _ _ _ h1 h2
  obtain ⟨him1, _, _, _⟩ := h1
  obtain ⟨him, hrefs, hsink, hdm⟩ := hkey
  have href := serialize_tree_node_ref e root.isDirB root.label
    (if root.isDirB then serialize_recursive e root s0 else s0)
  refine ⟨rfl, ?_, ?_, ?_, ?_, ?_, ?_, ?_, rfl⟩
  · show (serialize_tree_node e root.isDirB root.label
        (if root.isDirB then serialize_recursive e root s0 else s0)).1.refs =
      s0.refs ++ refsSpec e (serOrder root) s0.im
    exact hrefs
  · show (serialize_tree_node e root.isDirB root.label
        (if root.isDirB then serialize_recursive e root s0 else s0)).2 =
      encodeRef (imAfter e (if root.isDirB then serRecOrder root else [])
        s0.im)
    rw [href, him1]
  · show (mwFlush e.comp
        (serialize_tree_node e root.isDirB root.label
          (if root.isDirB then serialize_recursive e root s0 else s0)).1.im).1 =
      (mwFlush e.comp (imAfter e (serOrder root) s0.im)).1
    rw [him]
  · show (mwFlush e.comp
        (serialize_tree_node e root.isDirB root.label
          (if root.isDirB then serialize_recursive e root s0 else s0)).1.im).1.bufFill = 0
    exact mwFlush_bufFill _ _
  · show (mwFlush e.comp
        (serialize_tree_node e root.isDirB root.label
          (if root.isDirB then serialize_recursive e root s0 else s0)).1.dm).1.bufFill = 0
    exact mwFlush_bufFill _ _
  · have hbo := mwFlush_blockOffset e.comp
      (serialize_tree_node e root.isDirB root.label
        (if root.isDirB then serialize_recursive e root s0 else s0)).1.im
    show (serialize_tree_node e root.isDirB root.label
          (if root.isDirB then serialize_recursive e root s0 else s0)).1.sinkSize +
        (mwFlush e.comp
          (serialize_tree_node e root.isDirB root.label
            (if root.isDirB then serialize_recursive e root s0 else s0)).1.im).2 +
        s0.im.blockOffset =
      s0.sinkSize +
        (mwFlush e.comp
          (serialize_tree_node e root.isDirB root.label
            (if root.isDirB then serialize_recursive e root s0 else s0)).1.im).1.blockOffset
    omega
  · have hbo := mwFlush_blockOffset e.comp
      (serialize_tree_node e root.isDirB root.label
        (if root.isDirB then serialize_recursive e root s0 else s0)).1.dm
    show (serialize_tree_node e root.isDirB root.label
            (if root.isDirB then serialize_recursive e root s0 else s0)).1.sinkSize +
          (mwFlush e.comp
            (serialize_tree_node e root.isDirB root.label
              (if root.isDirB then serialize_recursive e root s0 else s0)).1.im).2 +
          ((serialize_tree_node e root.isDirB root.label
            (if root.isDirB then serialize_recursive e root s0 else s0)).1.dmMem +
            (mwFlush e.comp
              (serialize_tree_node e root.isDirB root.label
                (if root.isDirB then serialize_recursive e root s0 else s0)).1.dm).2) +
          s0.dm.blockOffset =
        (serialize_tree_node e root.isDirB root.label
            (if root.isDirB then serialize_recursive e root s0 else s0)).1.sinkSize +
          (mwFlush e.comp
            (serialize_tree_node e root.isDirB root.label
              (if root.isDirB then serialize_recursive e root s0 else s0)).1.im).2 +
          s0.dmMem +
          (mwFlush e.comp
            (serialize_tree_node e root.isDirB root.label
              (if root.isDirB then serialize_recursive e root s0 else s0)).1.dm).1.blockOffset
    omega

end SqfsTools
